import Mathlib

/-
Verification of the inventory store in corrected_code.py: an insertion-ordered
mapping from item name to integer quantity, mutated by add_item and
remove_item, queried by get_qty and check_low_items, persisted by save_data
and reloaded by load_data. A Python dict is embedded as an association list in
insertion order, Python exceptions as an error type returned through Except,
and the file at the persistence path as an abstract FileState.
-/

namespace InventoryModel

/-- A Python dict from item name to integer quantity, in insertion order. -/
abbrev Store := List (String × Int)

/-- Python exception classes raised by the inventory functions. The spec maps
TypeError and ValueError to InvalidArgument, KeyError to NotFound, and
json.JSONDecodeError to ParseError. A plain ValueError is a distinct class
from json.JSONDecodeError, so the handler for JSONDecodeError in load_data
does not catch it. -/
inductive PyErr
  | typeError
  | valueError
  | keyError
  | jsonDecodeError
deriving DecidableEq

/-- Logging levels used by the module. -/
inductive Level
  | info
  | warning
  | error
deriving DecidableEq

/-- Python stock_data.get(item, 0): the stored value, or 0 when absent. -/
def lookup0 : Store → String → Int
  | [], _ => 0
  | (k, v) :: rest, item => if k = item then v else lookup0 rest item

/-- Python membership test item in stock_data. -/
def hasKey : Store → String → Bool
  | [], _ => false
  | (k, _) :: rest, item => k = item || hasKey rest item

/-- Python assignment stock_data[item] = v: replaces the value in place when
the key is present, keeping its position, otherwise appends a new entry at the
end. -/
def setKey : Store → String → Int → Store
  | [], item, v => [(item, v)]
  | (k, w) :: rest, item, v =>
    if k = item then (item, v) :: rest else (k, w) :: setKey rest item v

/-- Python del stock_data[item]: removes the first entry with the key (the
store holds at most one entry per key in every reachable state). -/
def eraseKey : Store → String → Store
  | [], _ => []
  | (k, w) :: rest, item =>
    if k = item then rest else (k, w) :: eraseKey rest item

/-- Keys of the store in iteration order. -/
def keys (st : Store) : List String := st.map Prod.fst

/-- add_item from corrected_code.py, lines 15 to 40: raises TypeError on an
empty item name, ValueError on a negative quantity, and otherwise increments
the stored quantity, creating the entry when absent. The isinstance checks of
the source are discharged by the Lean types, and the log bookkeeping carries
no store state. -/
def add_item (st : Store) (item : String) (qty : Int := 0) : Except PyErr Store :=
  if item = "" then .error .typeError
  else if qty < 0 then .error .valueError
  else .ok (setKey st item (lookup0 st item + qty))

/-- remove_item from corrected_code.py, lines 43 to 79: raises TypeError on an
empty item name, ValueError on a non-positive quantity, KeyError when the item
is absent; otherwise stores the decremented quantity when it stays positive
and deletes the entry when it drops to zero or below. -/
def remove_item (st : Store) (item : String) (qty : Int) : Except PyErr Store :=
  if item = "" then .error .typeError
  else if qty ≤ 0 then .error .valueError
  else if hasKey st item = false then .error .keyError
  else
    let remaining := lookup0 st item - qty
    if remaining > 0 then .ok (setKey st item remaining)
    else .ok (eraseKey st item)

/-- get_qty from corrected_code.py, lines 82 to 86: raises TypeError on an
empty item name, otherwise returns the stored quantity or 0 when absent. -/
def get_qty (st : Store) (item : String) : Except PyErr Int :=
  if item = "" then .error .typeError
  else .ok (lookup0 st item)

/-- check_low_items from corrected_code.py, lines 144 to 148: the item names
whose quantity is strictly below the threshold, in iteration order. The
threshold defaults to 5. -/
def check_low_items (st : Store) (threshold : Int := 5) : List String :=
  (st.filter (fun p => p.2 < threshold)).map (fun p => p.1)

/-- print_data from corrected_code.py, lines 137 to 141, logs one line per
item in iteration order; the embedding returns the reported pairs. -/
def print_data (st : Store) : List (String × Int) := st

/-- JSON values as produced by json.load. JSON numbers appear in this
development only as integers; no claim involves fractional numbers. -/
inductive Json
  | obj (entries : List (String × Json))
  | arr (items : List Json)
  | jint (n : Int)
  | jstr (s : String)
  | jbool (b : Bool)
  | jnull

/-- Decimal digit characters to their value; none when the list is empty or a
non-digit occurs. -/
def decDigits : List Char → Option Nat
  | [] => none
  | cs =>
    if cs.all (fun c => c.isDigit)
    then some (cs.foldl (fun a c => a * 10 + (c.toNat - 48)) 0)
    else none

/-- Removal of leading and trailing whitespace, as int() applies to a string
argument. -/
def stripSpaces (cs : List Char) : List Char :=
  ((cs.dropWhile (fun c => c.isWhitespace)).reverse.dropWhile
    (fun c => c.isWhitespace)).reverse

/-- Python int(s) on a string: an optional sign followed by decimal digits,
surrounding whitespace ignored; none models the ValueError on any other text.
Underscore digit grouping is outside the modelled fragment. -/
def strToInt (s : String) : Option Int :=
  match stripSpaces s.toList with
  | '-' :: rest => (decDigits rest).map (fun n => -(n : Int))
  | '+' :: rest => (decDigits rest).map (fun n => (n : Int))
  | cs => (decDigits cs).map (fun n => (n : Int))

/-- Python int(v) on a JSON value: an int is returned unchanged, a bool maps
to 0 or 1, a string parses as a decimal integer; null, arrays and objects
raise TypeError and non-numeric strings raise ValueError, both modelled as
none because load_data catches the two alike and skips the entry. -/
def pyInt : Json → Option Int
  | .jint n => some n
  | .jbool b => some (if b then 1 else 0)
  | .jstr s => strToInt s
  | _ => none

/-- State of the file at the persistence path: missing, present with text that
json.load rejects, or present with text parsing to the given JSON value. -/
inductive FileState
  | absent
  | invalidText
  | validJson (v : Json)

/-- Outcome of a call to load_data: the exception propagated to the caller if
any, the global store after the call, and the levels of the log records the
call emitted, in order. -/
structure LoadResult where
  err : Option PyErr
  store : Store
  logs : List Level
deriving DecidableEq

/-- The normalization loop of load_data, lines 98 to 108: each value coerced
with int(), entries whose coercion fails skipped, successive assignment into a
fresh dict. Object keys are already strings, so str(k) is the identity. -/
def normalizeFrom (acc : Store) : List (String × Json) → Store
  | [] => acc
  | (k, v) :: rest =>
    match pyInt v with
    | some n => normalizeFrom (setKey acc k n) rest
    | none => normalizeFrom acc rest

/-- Levels of the warnings the normalization loop emits for skipped entries,
in order. -/
def skipWarnings : List (String × Json) → List Level
  | [] => []
  | (_, v) :: rest =>
    match pyInt v with
    | some _ => skipWarnings rest
    | none => Level.warning :: skipWarnings rest

/-- load_data from corrected_code.py, lines 89 to 123. A missing file clears
the store and logs a warning. Unparseable text logs an error and re-raises
json.JSONDecodeError with the store untouched. A parsed value that is not an
object raises a plain ValueError caught by no handler in the function, before
any mutation. A parsed object is normalized entry by entry and then replaces
the store contents, with an info record logged. -/
def load_data (fs : FileState) (st : Store) : LoadResult :=
  match fs with
  | .absent => ⟨none, [], [Level.warning]⟩
  | .invalidText => ⟨some PyErr.jsonDecodeError, st, [Level.error]⟩
  | .validJson (.obj entries) =>
    ⟨none, normalizeFrom [] entries, skipWarnings entries ++ [Level.info]⟩
  | .validJson _ => ⟨some PyErr.valueError, st, []⟩

/-- save_data from corrected_code.py, lines 126 to 134, serializes the store
as a JSON object with the items in iteration order; the embedding returns the
written JSON value (the OSError branch concerns the host file system and
carries no store state). -/
def save_data (st : Store) : Json :=
  .obj (st.map (fun p => (p.1, Json.jint p.2)))

/-- Global store after a call: the returned store on success; on an exception
the prior store, because every raise in add_item, remove_item and get_qty
happens before any mutation. -/
def stateAfter (st : Store) : Except PyErr Store → Store
  | .ok st2 => st2
  | .error _ => st

/-- Combined state of the process: the global store and the file at the
persistence path. -/
structure SysState where
  store : Store
  file : FileState

/-- One successful operation: add_item or remove_item returning normally,
save_data, or load_data returning normally against the current file. -/
inductive Step : SysState → SysState → Prop
  | add (s : SysState) (item : String) (qty : Int) (st2 : Store) :
      add_item s.store item qty = .ok st2 → Step s ⟨st2, s.file⟩
  | remove (s : SysState) (item : String) (qty : Int) (st2 : Store) :
      remove_item s.store item qty = .ok st2 → Step s ⟨st2, s.file⟩
  | save (s : SysState) : Step s ⟨s.store, .validJson (save_data s.store)⟩
  | load (s : SysState) (r : LoadResult) :
      load_data s.file s.store = r → r.err = none → Step s ⟨r.store, s.file⟩

/-- System states reachable from the empty store with no file present by
successful operations. -/
def SysReachable (s : SysState) : Prop :=
  Relation.ReflTransGen Step ⟨[], FileState.absent⟩ s

/-- Store transitions by successful add_item and remove_item calls only. -/
inductive StoreStep : Store → Store → Prop
  | add (st : Store) (item : String) (qty : Int) (st2 : Store) :
      add_item st item qty = .ok st2 → StoreStep st st2
  | remove (st : Store) (item : String) (qty : Int) (st2 : Store) :
      remove_item st item qty = .ok st2 → StoreStep st st2

/-- Stores reachable from empty via valid add and remove sequences. -/
def StoreReachable (st : Store) : Prop :=
  Relation.ReflTransGen StoreStep [] st

/-- Well-formedness of a store: distinct keys and non-negative quantities. -/
def StoreWF (st : Store) : Prop :=
  (keys st).Nodup ∧ ∀ p ∈ st, 0 ≤ p.2

/-- Well-formedness of the persisted file: when it parses to a JSON object,
every value is a non-negative integer literal. -/
def FileWF (fs : FileState) : Prop :=
  ∀ entries, fs = .validJson (.obj entries) →
    ∀ p ∈ entries, ∃ n : Int, p.2 = Json.jint n ∧ 0 ≤ n

/-- Well-formedness of a combined system state. -/
def SysWF (s : SysState) : Prop := StoreWF s.store ∧ FileWF s.file

/-- Membership in a store holds exactly when the key occurs in the key list. -/
theorem hasKey_eq_true_iff (st : Store) (k : String) :
    hasKey st k = true ↔ k ∈ keys st := by
  induction st with
  | nil => simp [hasKey, keys]
  | cons q rest ih =>
    cases q with
    | mk k2 v2 =>
      simp only [hasKey, Bool.or_eq_true, decide_eq_true_eq, ih, keys,
        List.map_cons, List.mem_cons]
      exact or_congr_left eq_comm

/-- Absence of a key from the key list characterizes a false membership
test. -/
theorem hasKey_eq_false_iff (st : Store) (k : String) :
    hasKey st k = false ↔ k ∉ keys st := by
  constructor
  · intro h hm
    rw [(hasKey_eq_true_iff st k).mpr hm] at h
    cases h
  · intro hm
    cases hb : hasKey st k
    · rfl
    · exact absurd ((hasKey_eq_true_iff st k).mp hb) hm

/-- An absent key looks up to the default 0. -/
theorem lookup0_eq_zero (st : Store) (k : String) (h : hasKey st k = false) :
    lookup0 st k = 0 := by
  induction st with
  | nil => rfl
  | cons q rest ih =>
    cases q with
    | mk k2 v2 =>
      simp only [hasKey, Bool.or_eq_false_iff, decide_eq_false_iff_not] at h
      simp [lookup0, h.1, ih h.2]

/-- A store of non-negative quantities looks up non-negative values. -/
theorem lookup0_nonneg (st : Store) (k : String) (h : ∀ p ∈ st, 0 ≤ p.2) :
    0 ≤ lookup0 st k := by
  induction st with
  | nil => simp [lookup0]
  | cons q rest ih =>
    cases q with
    | mk k2 v2 =>
      by_cases hk : k2 = k
      · simpa [lookup0, hk] using h (k2, v2) (by simp)
      · simp only [lookup0, if_neg hk]
        exact ih (fun q hq => h q (List.mem_cons_of_mem _ hq))

/-- Every entry of a store after an assignment is the assigned pair or an
entry of the old store. -/
theorem mem_setKey (st : Store) (k : String) (v : Int) (p : String × Int)
    (h : p ∈ setKey st k v) : p = (k, v) ∨ p ∈ st := by
  induction st with
  | nil => simpa [setKey] using h
  | cons q rest ih =>
    cases q with
    | mk k2 v2 =>
      by_cases hk : k2 = k
      · simp only [setKey, if_pos hk] at h
        rcases List.mem_cons.mp h with h | h
        · exact Or.inl h
        · exact Or.inr (List.mem_cons_of_mem _ h)
      · simp only [setKey, if_neg hk] at h
        rcases List.mem_cons.mp h with h | h
        · exact Or.inr (h ▸ List.mem_cons_self _ _)
        · rcases ih h with h2 | h2
          · exact Or.inl h2
          · exact Or.inr (List.mem_cons_of_mem _ h2)

/-- Assignment keeps the key list when the key is present and appends the key
otherwise. -/
theorem keys_setKey (st : Store) (k : String) (v : Int) :
    keys (setKey st k v) = if hasKey st k then keys st else keys st ++ [k] := by
  induction st with
  | nil => simp [setKey, hasKey, keys]
  | cons q rest ih =>
    cases q with
    | mk k2 v2 =>
      by_cases hk : k2 = k
      · simp [setKey, hasKey, keys, hk]
      · simp only [setKey, if_neg hk, hasKey, keys, List.map_cons] at ih ⊢
        rw [ih]
        by_cases h2 : hasKey rest k
        · simp [h2, hk]
        · simp [h2, hk]

/-- Assignment preserves distinctness of keys. -/
theorem nodup_keys_setKey (st : Store) (k : String) (v : Int)
    (h : (keys st).Nodup) : (keys (setKey st k v)).Nodup := by
  rw [keys_setKey]
  split
  · exact h
  · next hk =>
    have hk2 : k ∉ keys st := fun hm => hk ((hasKey_eq_true_iff st k).mpr hm)
    simp [List.nodup_append, h, hk2]

/-- An assigned key looks up to the assigned value. -/
theorem lookup0_setKey_self (st : Store) (k : String) (v : Int) :
    lookup0 (setKey st k v) k = v := by
  induction st with
  | nil => simp [setKey, lookup0]
  | cons q rest ih =>
    cases q with
    | mk k2 v2 =>
      by_cases hk : k2 = k
      · simp [setKey, hk, lookup0]
      · simp [setKey, hk, lookup0, ih]

/-- Membership after an assignment: the old keys plus the assigned one. -/
theorem hasKey_setKey_iff (st : Store) (k k2 : String) (v : Int) :
    hasKey (setKey st k v) k2 = true ↔ (hasKey st k2 = true ∨ k = k2) := by
  by_cases h : hasKey st k
  · rw [hasKey_eq_true_iff, keys_setKey, if_pos h, ← hasKey_eq_true_iff]
    constructor
    · exact Or.inl
    · rintro (hm | rfl)
      · exact hm
      · exact h
  · rw [hasKey_eq_true_iff, keys_setKey, if_neg h, List.mem_append,
      List.mem_singleton, ← hasKey_eq_true_iff]
    constructor
    · rintro (hm | rfl)
      · exact Or.inl hm
      · exact Or.inr rfl
    · rintro (hm | rfl)
      · exact Or.inl hm
      · exact Or.inr rfl

/-- Deletion yields a sublist of the store. -/
theorem eraseKey_sublist (st : Store) (k : String) :
    List.Sublist (eraseKey st k) st := by
  induction st with
  | nil => simp [eraseKey]
  | cons q rest ih =>
    cases q with
    | mk k2 v2 =>
      by_cases hk : k2 = k
      · simp only [eraseKey, if_pos hk]
        exact List.sublist_cons_self (k2, v2) rest
      · simpa [eraseKey, hk] using ih.cons₂ (k2, v2)

/-- Entries surviving a deletion were entries of the old store. -/
theorem mem_of_mem_eraseKey (st : Store) (k : String) (p : String × Int)
    (h : p ∈ eraseKey st k) : p ∈ st :=
  (eraseKey_sublist st k).subset h

/-- Deletion preserves distinctness of keys. -/
theorem nodup_keys_eraseKey (st : Store) (k : String)
    (h : (keys st).Nodup) : (keys (eraseKey st k)).Nodup :=
  h.sublist ((eraseKey_sublist st k).map Prod.fst)

/-- On a store with distinct keys, deletion removes the key entirely. -/
theorem hasKey_eraseKey_self (st : Store) (k : String)
    (h : (keys st).Nodup) : hasKey (eraseKey st k) k = false := by
  induction st with
  | nil => rfl
  | cons q rest ih =>
    cases q with
    | mk k2 v2 =>
      simp only [keys, List.map_cons, List.nodup_cons] at h
      by_cases hk : k2 = k
      · subst hk
        simp only [eraseKey, if_pos rfl]
        exact (hasKey_eq_false_iff rest k2).mpr h.1
      · simp only [eraseKey, if_neg hk, hasKey, Bool.or_eq_false_iff,
          decide_eq_false_iff_not]
        exact ⟨hk, ih h.2⟩

/-- Membership of lists concatenated. -/
theorem hasKey_append (a b : Store) (k : String) :
    hasKey (a ++ b) k = (hasKey a k || hasKey b k) := by
  induction a with
  | nil => simp [hasKey]
  | cons q rest ih =>
    cases q with
    | mk k2 v2 => simp [hasKey, ih, Bool.or_assoc]

/-- Assigning an absent key appends the entry at the end. -/
theorem setKey_eq_append (st : Store) (k : String) (v : Int)
    (h : hasKey st k = false) : setKey st k v = st ++ [(k, v)] := by
  induction st with
  | nil => rfl
  | cons q rest ih =>
    cases q with
    | mk k2 v2 =>
      simp only [hasKey, Bool.or_eq_false_iff, decide_eq_false_iff_not] at h
      simp [setKey, h.1, ih h.2]

/-- On a store with distinct keys, an entry determines the lookup value. -/
theorem lookup0_of_mem (st : Store) (k : String) (v : Int)
    (hnd : (keys st).Nodup) (h : (k, v) ∈ st) : lookup0 st k = v := by
  induction st with
  | nil => cases h
  | cons q rest ih =>
    cases q with
    | mk kh vh =>
      simp only [keys, List.map_cons, List.nodup_cons] at hnd
      rcases List.mem_cons.mp h with heq | hmem
      · injection heq with h1 h2
        subst h1
        subst h2
        simp [lookup0]
      · have hne : kh ≠ k := by
          rintro rfl
          exact hnd.1 (by simpa [keys] using List.mem_map_of_mem Prod.fst hmem)
        simp only [lookup0, if_neg hne]
        exact ih hnd.2 hmem

/-- A present key occurs with its lookup value as an entry. -/
theorem lookup0_mem_of_hasKey (st : Store) (k : String)
    (h : hasKey st k = true) : (k, lookup0 st k) ∈ st := by
  induction st with
  | nil => cases h
  | cons q rest ih =>
    cases q with
    | mk kh vh =>
      by_cases hk : kh = k
      · subst hk
        simp [lookup0]
      · simp only [hasKey, Bool.or_eq_true, decide_eq_true_eq] at h
        rcases h with h | h
        · exact absurd h hk
        · simp only [lookup0, if_neg hk]
          exact List.mem_cons_of_mem _ (ih h)

/-- Inversion of a successful add_item call. -/
theorem add_item_ok_iff (st : Store) (item : String) (qty : Int) (st2 : Store) :
    add_item st item qty = .ok st2 ↔
      item ≠ "" ∧ 0 ≤ qty ∧ st2 = setKey st item (lookup0 st item + qty) := by
  constructor
  · intro h
    by_cases h1 : item = ""
    · simp [add_item, h1] at h
    · by_cases h2 : qty < 0
      · simp [add_item, h1, h2] at h
      · refine ⟨h1, not_lt.mp h2, ?_⟩
        simpa [add_item, h1, h2, eq_comm] using h
  · rintro ⟨h1, h2, rfl⟩
    simp [add_item, h1, not_lt.mpr h2]

/-- Inversion of a successful remove_item call. -/
theorem remove_item_ok_iff (st : Store) (item : String) (qty : Int)
    (st2 : Store) :
    remove_item st item qty = .ok st2 ↔
      item ≠ "" ∧ 0 < qty ∧ hasKey st item = true ∧
        ((0 < lookup0 st item - qty ∧
            st2 = setKey st item (lookup0 st item - qty)) ∨
         (lookup0 st item - qty ≤ 0 ∧ st2 = eraseKey st item)) := by
  constructor
  · intro h
    by_cases h1 : item = ""
    · simp [remove_item, h1] at h
    · by_cases h2 : qty ≤ 0
      · simp [remove_item, h1, h2] at h
      · by_cases h3 : hasKey st item = false
        · simp [remove_item, h1, h2, h3] at h
        · have h3t : hasKey st item = true := by
            cases hb : hasKey st item
            · exact absurd hb h3
            · rfl
          refine ⟨h1, not_le.mp h2, h3t, ?_⟩
          by_cases h4 : 0 < lookup0 st item - qty
          · exact Or.inl ⟨h4, by
              simpa [remove_item, h1, h2, h3, h4, eq_comm] using h⟩
          · exact Or.inr ⟨not_lt.mp h4, by
              simpa [remove_item, h1, h2, h3, h4, eq_comm] using h⟩
  · rintro ⟨h1, h2, h3, ⟨h4, rfl⟩ | ⟨h4, rfl⟩⟩
    · simp [remove_item, h1, not_le.mpr h2, h3, h4]
    · simp [remove_item, h1, not_le.mpr h2, h3, not_lt.mpr h4]

/-- Membership in the low-stock report names exactly the entries below the
threshold. -/
theorem mem_check_low_items (st : Store) (t : Int) (name : String) :
    name ∈ check_low_items st t ↔ ∃ v, (name, v) ∈ st ∧ v < t := by
  constructor
  · intro h
    rcases List.mem_map.mp h with ⟨p, hp, hpe⟩
    rcases List.mem_filter.mp hp with ⟨hmem, hlt⟩
    refine ⟨p.2, ?_, by simpa using hlt⟩
    cases p with
    | mk a b =>
      simp only at hpe
      subst hpe
      exact hmem
  · rintro ⟨v, hm, hlt⟩
    exact List.mem_map.mpr
      ⟨(name, v), List.mem_filter.mpr ⟨hm, by simpa using hlt⟩, rfl⟩

/-- The low-stock report lists keys in the iteration order of the store. -/
theorem check_low_items_sublist (st : Store) (t : Int) :
    List.Sublist (check_low_items st t) (keys st) :=
  (List.filter_sublist st).map Prod.fst

/-- Entries of the normalized dict come from coercible entries of the parsed
object or from the accumulator. -/
theorem mem_normalizeFrom (entries : List (String × Json)) (acc : Store)
    (p : String × Int) (h : p ∈ normalizeFrom acc entries) :
    p ∈ acc ∨ ∃ v, (p.1, v) ∈ entries ∧ pyInt v = some p.2 := by
  induction entries generalizing acc with
  | nil => exact Or.inl (by simpa [normalizeFrom] using h)
  | cons e rest ih =>
    cases e with
    | mk k v =>
      cases hv : pyInt v with
      | some n =>
        simp only [normalizeFrom, hv] at h
        rcases ih (setKey acc k n) h with hacc | ⟨w, hw1, hw2⟩
        · rcases mem_setKey acc k n p hacc with rfl | hp
          · exact Or.inr ⟨v, by simp, by simp [hv]⟩
          · exact Or.inl hp
        · exact Or.inr ⟨w, List.mem_cons_of_mem _ hw1, hw2⟩
      | none =>
        simp only [normalizeFrom, hv] at h
        rcases ih acc h with hacc | ⟨w, hw1, hw2⟩
        · exact Or.inl hacc
        · exact Or.inr ⟨w, List.mem_cons_of_mem _ hw1, hw2⟩

/-- The normalized dict keeps its keys distinct. -/
theorem nodup_keys_normalizeFrom (entries : List (String × Json)) (acc : Store)
    (h : (keys acc).Nodup) : (keys (normalizeFrom acc entries)).Nodup := by
  induction entries generalizing acc with
  | nil => simpa [normalizeFrom] using h
  | cons e rest ih =>
    cases e with
    | mk k v =>
      cases hv : pyInt v with
      | some n =>
        simp only [normalizeFrom, hv]
        exact ih _ (nodup_keys_setKey acc k n h)
      | none =>
        simp only [normalizeFrom, hv]
        exact ih _ h

/-- A key survives normalization exactly when the accumulator holds it or
some entry for the key has a coercible value. -/
theorem hasKey_normalizeFrom (entries : List (String × Json)) (acc : Store)
    (k : String) :
    hasKey (normalizeFrom acc entries) k = true ↔
      (hasKey acc k = true ∨ ∃ v, (k, v) ∈ entries ∧ (pyInt v).isSome) := by
  induction entries generalizing acc with
  | nil => simp [normalizeFrom]
  | cons e rest ih =>
    cases e with
    | mk k2 v2 =>
      cases hv : pyInt v2 with
      | some n =>
        simp only [normalizeFrom, hv]
        rw [ih]
        rw [hasKey_setKey_iff]
        constructor
        · rintro ((h | rfl) | ⟨w, hw1, hw2⟩)
          · exact Or.inl h
          · exact Or.inr ⟨v2, by simp, by simp [hv]⟩
          · exact Or.inr ⟨w, List.mem_cons_of_mem _ hw1, hw2⟩
        · rintro (h | ⟨w, hw1, hw2⟩)
          · exact Or.inl (Or.inl h)
          · rcases List.mem_cons.mp hw1 with heq | hmem
            · injection heq with e1 e2
              subst e1
              exact Or.inl (Or.inr rfl)
            · exact Or.inr ⟨w, hmem, hw2⟩
      | none =>
        simp only [normalizeFrom, hv]
        rw [ih]
        constructor
        · rintro (h | ⟨w, hw1, hw2⟩)
          · exact Or.inl h
          · exact Or.inr ⟨w, List.mem_cons_of_mem _ hw1, hw2⟩
        · rintro (h | ⟨w, hw1, hw2⟩)
          · exact Or.inl h
          · rcases List.mem_cons.mp hw1 with heq | hmem
            · injection heq with e1 e2
              subst e2
              simp [hv] at hw2
            · exact Or.inr ⟨w, hmem, hw2⟩

/-- Normalizing the serialized form of a store with distinct keys, against an
accumulator disjoint from it, appends the store unchanged. -/
theorem normalizeFrom_save (st : Store) (acc : Store)
    (hnd : (keys st).Nodup)
    (hdisj : ∀ k ∈ keys st, hasKey acc k = false) :
    normalizeFrom acc (st.map (fun p => (p.1, Json.jint p.2))) = acc ++ st := by
  induction st generalizing acc with
  | nil => simp [normalizeFrom]
  | cons q rest ih =>
    cases q with
    | mk k v =>
      simp only [List.map_cons, normalizeFrom, pyInt]
      rw [setKey_eq_append acc k v (hdisj k (by simp [keys]))]
      rw [ih (acc ++ [(k, v)]) ?nd ?disj]
      · simp
      case nd =>
        simp only [keys, List.map_cons, List.nodup_cons] at hnd
        exact hnd.2
      case disj =>
        intro k2 hk2
        have h1 : hasKey acc k2 = false := by
          refine hdisj k2 ?_
          simp only [keys, List.map_cons, List.mem_cons]
          exact Or.inr (by simpa [keys] using hk2)
        have h2 : k ≠ k2 := by
          simp only [keys, List.map_cons, List.nodup_cons] at hnd
          rintro rfl
          exact hnd.1 (by simpa [keys] using hk2)
        rw [hasKey_append, h1]
        simp [hasKey, h2]

/-- Normalizing a serialized store skips nothing, so no warning is logged. -/
theorem skipWarnings_save (st : Store) :
    skipWarnings (st.map (fun p => (p.1, Json.jint p.2))) = [] := by
  induction st with
  | nil => rfl
  | cons q rest ih =>
    cases q with
    | mk k v => simp [skipWarnings, pyInt, ih]

/-- A missing file is well formed. -/
theorem fileWF_absent : FileWF FileState.absent := fun _ he => nomatch he

/-- A successful add_item preserves store well-formedness. -/
theorem storeWF_add (st st2 : Store) (item : String) (qty : Int)
    (h : add_item st item qty = .ok st2) (hw : StoreWF st) : StoreWF st2 := by
  rcases (add_item_ok_iff st item qty st2).mp h with ⟨h1, h2, rfl⟩
  refine ⟨nodup_keys_setKey st item _ hw.1, ?_⟩
  intro p hp
  rcases mem_setKey st item _ p hp with rfl | hp2
  · simpa using add_nonneg (lookup0_nonneg st item hw.2) h2
  · exact hw.2 p hp2

/-- A successful remove_item preserves store well-formedness. -/
theorem storeWF_remove (st st2 : Store) (item : String) (qty : Int)
    (h : remove_item st item qty = .ok st2) (hw : StoreWF st) : StoreWF st2 := by
  rcases (remove_item_ok_iff st item qty st2).mp h with
    ⟨h1, h2, h3, ⟨h4, rfl⟩ | ⟨h4, rfl⟩⟩
  · refine ⟨nodup_keys_setKey st item _ hw.1, ?_⟩
    intro p hp
    rcases mem_setKey st item _ p hp with rfl | hp2
    · simpa using le_of_lt h4
    · exact hw.2 p hp2
  · refine ⟨nodup_keys_eraseKey st item hw.1, ?_⟩
    intro p hp
    exact hw.2 p (mem_of_mem_eraseKey st item p hp)

/-- A load_data call that returns normally against a well-formed file leaves
a well-formed store. -/
theorem storeWF_load (fs : FileState) (st : Store) (r : LoadResult)
    (h : load_data fs st = r) (he : r.err = none) (hf : FileWF fs) :
    StoreWF r.store := by
  cases fs with
  | absent =>
    subst h
    refine ⟨?_, ?_⟩ <;> simp [load_data, keys]
  | invalidText =>
    subst h
    simp [load_data] at he
  | validJson v =>
    cases v with
    | obj entries =>
      subst h
      refine ⟨nodup_keys_normalizeFrom entries [] (by simp [keys]), ?_⟩
      intro p hp
      rcases mem_normalizeFrom entries [] p hp with hacc | ⟨w, hw1, hw2⟩
      · cases hacc
      · rcases hf entries rfl (p.1, w) hw1 with ⟨n, hn1, hn2⟩
        simp only at hn1
        subst hn1
        simp only [pyInt, Option.some.injEq] at hw2
        omega
    | arr l =>
      subst h
      simp [load_data] at he
    | jint n =>
      subst h
      simp [load_data] at he
    | jstr s =>
      subst h
      simp [load_data] at he
    | jbool b =>
      subst h
      simp [load_data] at he
    | jnull =>
      subst h
      simp [load_data] at he

/-- Every successful operation preserves system well-formedness. -/
theorem sysWF_step (s s2 : SysState) (h : Step s s2) (hw : SysWF s) :
    SysWF s2 := by
  cases h with
  | add item qty st2 ha => exact ⟨storeWF_add _ _ _ _ ha hw.1, hw.2⟩
  | remove item qty st2 ha => exact ⟨storeWF_remove _ _ _ _ ha hw.1, hw.2⟩
  | save =>
    refine ⟨hw.1, ?_⟩
    intro entries he p hp
    simp only [save_data, FileState.validJson.injEq, Json.obj.injEq] at he
    subst he
    rcases List.mem_map.mp hp with ⟨q, hq, rfl⟩
    exact ⟨q.2, rfl, hw.1.2 q hq⟩
  | load r hl he2 => exact ⟨storeWF_load _ _ _ hl he2 hw.2, hw.2⟩

/-- Every reachable system state is well formed. -/
theorem sysReachable_WF (s : SysState) (h : SysReachable s) : SysWF s := by
  induction h with
  | refl => exact ⟨⟨by simp [keys], by simp⟩, fileWF_absent⟩
  | tail _ hstep ih => exact sysWF_step _ _ hstep ih

/-- Every store reachable by add and remove alone is well formed. -/
theorem storeReachable_WF (st : Store) (h : StoreReachable st) : StoreWF st := by
  induction h with
  | refl => exact ⟨by simp [keys], by simp⟩
  | tail _ hstep ih =>
    cases hstep with
    | add item qty st2 ha => exact storeWF_add _ _ _ _ ha ih
    | remove item qty st2 ha => exact storeWF_remove _ _ _ _ ha ih


/-- An entry witnesses membership of its key. -/
theorem hasKey_of_mem (st : Store) (k : String) (v : Int)
    (h : (k, v) ∈ st) : hasKey st k = true :=
  (hasKey_eq_true_iff st k).mpr
    (by simpa [keys] using List.mem_map_of_mem Prod.fst h)

/-- The warnings of the normalization loop count the entries whose value
int() rejects. -/
theorem skipWarnings_count (entries : List (String × Json)) :
    List.count Level.warning (skipWarnings entries) =
      (entries.filter (fun e => (pyInt e.2).isNone)).length := by
  induction entries with
  | nil => rfl
  | cons e rest ih =>
    cases e with
    | mk k v =>
      cases hv : pyInt v <;>
        simp [skipWarnings, hv, ih, List.count_cons]

/-- C1 counterexample: the claim that every reachable state keeps every
stored quantity strictly positive is false on the code. From the empty start
the successful call of add_item with quantity 0 on the absent item a stores
the entry (a, 0), whose quantity is not strictly positive. -/
theorem C1_counterexample :
    ¬ (∀ s : SysState, SysReachable s → ∀ p ∈ s.store, 0 < p.2) := by
  intro h
  have hr : SysReachable ⟨[("a", 0)], FileState.absent⟩ :=
    Relation.ReflTransGen.single
      (Step.add ⟨[], FileState.absent⟩ "a" 0 [("a", 0)] rfl)
  exact absurd (h _ hr ("a", 0) (List.mem_singleton.mpr rfl)) (by decide)

/-- C1 amended: in every reachable state of the inventory store (empty start
followed by any sequence of successful add, remove, save, load operations)
every key present has a non-negative quantity; strict positivity fails only
because a successful add_item with quantity 0 can create an entry stored with
exactly 0. -/
theorem C1_nonneg_invariant (s : SysState) (h : SysReachable s) :
    ∀ p ∈ s.store, 0 ≤ p.2 :=
  (sysReachable_WF s h).1.2

/-- Witness for C1: the invariant evaluated on a concrete reachable state at
its single entry. -/
theorem C1_nonneg_invariant_witness :
    0 ≤ (("a", (2 : Int)) : String × Int).2 :=
  C1_nonneg_invariant ⟨[("a", 2)], FileState.absent⟩
    (Relation.ReflTransGen.single
      (Step.add ⟨[], FileState.absent⟩ "a" 2 [("a", 2)] rfl))
    ("a", 2) (List.mem_singleton.mpr rfl)

/-- C2: for a non-empty item present in a store with distinct keys and a
positive quantity, remove_item succeeds and decrements the stored quantity by
that amount; a result still positive is stored in place, while a result of
zero or below deletes the entry, after which get_qty returns 0 and the item
is absent from the low-stock report at every threshold and from the report
output. -/
theorem C2_remove_item_spec (st : Store) (item : String) (qty : Int)
    (hnd : (keys st).Nodup) (hitem : item ≠ "")
    (hmem : hasKey st item = true) (hqty : 0 < qty) :
    ∃ st2, remove_item st item qty = .ok st2 ∧
      ((0 < lookup0 st item - qty ∧
          st2 = setKey st item (lookup0 st item - qty) ∧
          lookup0 st2 item = lookup0 st item - qty) ∨
       (lookup0 st item - qty ≤ 0 ∧
          st2 = eraseKey st item ∧
          get_qty st2 item = .ok 0 ∧
          (∀ t : Int, item ∉ check_low_items st2 t) ∧
          (∀ v : Int, (item, v) ∉ print_data st2))) := by
  by_cases h4 : 0 < lookup0 st item - qty
  · refine ⟨setKey st item (lookup0 st item - qty), ?_, Or.inl ⟨h4, rfl, ?_⟩⟩
    · exact (remove_item_ok_iff st item qty _).mpr
        ⟨hitem, hqty, hmem, Or.inl ⟨h4, rfl⟩⟩
    · exact lookup0_setKey_self st item _
  · have hgone : hasKey (eraseKey st item) item = false :=
      hasKey_eraseKey_self st item hnd
    refine ⟨eraseKey st item, ?_,
      Or.inr ⟨not_lt.mp h4, rfl, ?_, ?_, ?_⟩⟩
    · exact (remove_item_ok_iff st item qty _).mpr
        ⟨hitem, hqty, hmem, Or.inr ⟨not_lt.mp h4, rfl⟩⟩
    · simp [get_qty, hitem, lookup0_eq_zero _ _ hgone]
    · intro t hmem2
      rcases (mem_check_low_items _ t item).mp hmem2 with ⟨v, hv, _⟩
      rw [hasKey_of_mem _ _ _ hv] at hgone
      cases hgone
    · intro v hv
      have hv2 : (item, v) ∈ eraseKey st item := hv
      rw [hasKey_of_mem _ _ _ hv2] at hgone
      cases hgone

/-- Witness for C2: removing the full stock of a concrete item deletes it. -/
theorem C2_remove_item_spec_witness :
    ∃ st2, remove_item [("a", 2)] "a" 2 = .ok st2 ∧
      ((0 < lookup0 [("a", 2)] "a" - 2 ∧
          st2 = setKey [("a", 2)] "a" (lookup0 [("a", 2)] "a" - 2) ∧
          lookup0 st2 "a" = lookup0 [("a", 2)] "a" - 2) ∨
       (lookup0 [("a", 2)] "a" - 2 ≤ 0 ∧
          st2 = eraseKey [("a", 2)] "a" ∧
          get_qty st2 "a" = .ok 0 ∧
          (∀ t : Int, "a" ∉ check_low_items st2 t) ∧
          (∀ v : Int, ("a", v) ∉ print_data st2))) :=
  C2_remove_item_spec [("a", 2)] "a" 2 (by decide) (by decide) (by decide)
    (by decide)

/-- C3: saving any store reachable via valid add and remove sequences and
then loading the saved file returns normally, reproduces exactly the same
keys and integer quantities in the same order, and this holds whatever the
store contents were before the load. -/
theorem C3_save_load_roundtrip (st : Store) (h : StoreReachable st)
    (prior : Store) :
    load_data (FileState.validJson (save_data st)) prior =
      ⟨none, st, [Level.info]⟩ := by
  have hnd := (storeReachable_WF st h).1
  simp only [load_data, save_data]
  rw [normalizeFrom_save st [] hnd (fun k _ => rfl), skipWarnings_save]
  simp

/-- Witness for C3: the round trip evaluated on a concrete reachable store
against a non-empty prior store. -/
theorem C3_save_load_roundtrip_witness :
    load_data (FileState.validJson (save_data [("a", 2)])) [("z", 9)] =
      ⟨none, [("a", 2)], [Level.info]⟩ :=
  C3_save_load_roundtrip [("a", 2)]
    (Relation.ReflTransGen.single (StoreStep.add [] "a" 2 [("a", 2)] rfl))
    [("z", 9)]

/-- C4: loading a path whose file exists but holds text that is not valid
JSON fails with the ParseError class json.JSONDecodeError, logs one error
record, and leaves the store contents exactly as they were before the
call. -/
theorem C4_load_invalid_json (st : Store) :
    load_data FileState.invalidText st =
      ⟨some PyErr.jsonDecodeError, st, [Level.error]⟩ := rfl

/-- C5: add_item fails with InvalidArgument (TypeError or ValueError) exactly
when the item is empty or the quantity negative, and succeeds otherwise;
remove_item fails with InvalidArgument exactly when the item is empty or the
quantity not positive, fails with NotFound (KeyError) exactly when the
arguments pass validation but the item is absent, and succeeds otherwise; a
propagated exception leaves the global store unchanged since every raise
happens before any mutation. -/
theorem C5_validation_errors (st : Store) (item : String) (qty : Int) :
    ((∃ e, add_item st item qty = .error e ∧
        (e = PyErr.typeError ∨ e = PyErr.valueError)) ↔
      (item = "" ∨ qty < 0)) ∧
    ((∃ st2, add_item st item qty = .ok st2) ↔
      ¬(item = "" ∨ qty < 0)) ∧
    ((∃ e, remove_item st item qty = .error e ∧
        (e = PyErr.typeError ∨ e = PyErr.valueError)) ↔
      (item = "" ∨ qty ≤ 0)) ∧
    (remove_item st item qty = .error PyErr.keyError ↔
      (item ≠ "" ∧ 0 < qty ∧ hasKey st item = false)) ∧
    ((∃ st2, remove_item st item qty = .ok st2) ↔
      (item ≠ "" ∧ 0 < qty ∧ hasKey st item = true)) ∧
    (∀ e, stateAfter st (Except.error e) = st) := by
  refine ⟨?_, ?_, ?_, ?_, ?_, fun e => rfl⟩
  · constructor
    · rintro ⟨e, he, hcl⟩
      by_contra hcon
      push_neg at hcon
      simp [add_item, hcon.1, not_lt.mpr hcon.2] at he
    · rintro (h1 | h2)
      · exact ⟨PyErr.typeError, by simp [add_item, h1], Or.inl rfl⟩
      · by_cases h1 : item = ""
        · exact ⟨PyErr.typeError, by simp [add_item, h1], Or.inl rfl⟩
        · exact ⟨PyErr.valueError, by simp [add_item, h1, h2], Or.inr rfl⟩
  · constructor
    · rintro ⟨st2, h⟩
      rcases (add_item_ok_iff st item qty st2).mp h with ⟨h1, h2, _⟩
      rintro (hc | hc)
      · exact h1 hc
      · exact absurd h2 (not_le.mpr hc)
    · intro hn
      push_neg at hn
      exact ⟨_, (add_item_ok_iff st item qty _).mpr ⟨hn.1, hn.2, rfl⟩⟩
  · constructor
    · rintro ⟨e, he, hcl⟩
      by_contra hcon
      push_neg at hcon
      by_cases h3 : hasKey st item = false
      · simp [remove_item, hcon.1, not_le.mpr hcon.2, h3] at he
        rcases hcl with rfl | rfl
        · cases he
        · cases he
      · by_cases h4 : 0 < lookup0 st item - qty
        · simp [remove_item, hcon.1, not_le.mpr hcon.2, h3, h4] at he
        · simp [remove_item, hcon.1, not_le.mpr hcon.2, h3, h4] at he
    · rintro (h1 | h2)
      · exact ⟨PyErr.typeError, by simp [remove_item, h1], Or.inl rfl⟩
      · by_cases h1 : item = ""
        · exact ⟨PyErr.typeError, by simp [remove_item, h1], Or.inl rfl⟩
        · exact ⟨PyErr.valueError, by simp [remove_item, h1, h2], Or.inr rfl⟩
  · constructor
    · intro h
      by_cases h1 : item = ""
      · simp [remove_item, h1] at h
      · by_cases h2 : qty ≤ 0
        · simp [remove_item, h1, h2] at h
        · by_cases h3 : hasKey st item = false
          · exact ⟨h1, not_le.mp h2, h3⟩
          · by_cases h4 : 0 < lookup0 st item - qty
            · simp [remove_item, h1, h2, h3, h4] at h
            · simp [remove_item, h1, h2, h3, h4] at h
    · rintro ⟨h1, h2, h3⟩
      simp [remove_item, h1, not_le.mpr h2, h3]
  · constructor
    · rintro ⟨st2, h⟩
      rcases (remove_item_ok_iff st item qty st2).mp h with ⟨h1, h2, h3, _⟩
      exact ⟨h1, h2, h3⟩
    · rintro ⟨h1, h2, h3⟩
      by_cases h4 : 0 < lookup0 st item - qty
      · exact ⟨_, (remove_item_ok_iff st item qty _).mpr
          ⟨h1, h2, h3, Or.inl ⟨h4, rfl⟩⟩⟩
      · exact ⟨_, (remove_item_ok_iff st item qty _).mpr
          ⟨h1, h2, h3, Or.inr ⟨not_lt.mp h4, rfl⟩⟩⟩

/-- C6: check_low_items returns exactly the names of the items stored with
quantity strictly below the threshold, as a subsequence of the iteration
order of the store; the threshold defaults to 5, and on the store mapping
apple to 7 and banana to 2 the call with threshold 5 returns only banana. -/
theorem C6_check_low_items_spec (st : Store) (t : Int)
    (hnd : (keys st).Nodup) :
    (∀ name, name ∈ check_low_items st t ↔
      (hasKey st name = true ∧ lookup0 st name < t)) ∧
    List.Sublist (check_low_items st t) (keys st) ∧
    check_low_items st = check_low_items st 5 ∧
    check_low_items [("apple", 7), ("banana", 2)] 5 = ["banana"] := by
  refine ⟨?_, check_low_items_sublist st t, rfl, rfl⟩
  intro name
  constructor
  · intro h
    rcases (mem_check_low_items st t name).mp h with ⟨v, hv, hlt⟩
    have := lookup0_of_mem st name v hnd hv
    exact ⟨hasKey_of_mem st name v hv, this ▸ hlt⟩
  · rintro ⟨hk, hlt⟩
    exact (mem_check_low_items st t name).mpr
      ⟨lookup0 st name, lookup0_mem_of_hasKey st name hk, hlt⟩

/-- Witness for C6: the characterization evaluated on the concrete store of
the claim. -/
theorem C6_check_low_items_spec_witness :
    (∀ name, name ∈ check_low_items [("apple", 7), ("banana", 2)] 5 ↔
      (hasKey [("apple", 7), ("banana", 2)] name = true ∧
        lookup0 [("apple", 7), ("banana", 2)] name < 5)) ∧
    List.Sublist (check_low_items [("apple", 7), ("banana", 2)] 5)
      (keys [("apple", 7), ("banana", 2)]) ∧
    check_low_items [("apple", 7), ("banana", 2)] =
      check_low_items [("apple", 7), ("banana", 2)] 5 ∧
    check_low_items [("apple", 7), ("banana", 2)] 5 = ["banana"] :=
  C6_check_low_items_spec [("apple", 7), ("banana", 2)] 5 (by decide)

/-- C7: loading a file whose text parses to a JSON object never raises; a
key is present in the resulting store exactly when some entry for it carries
a value int() accepts, so an entry whose value cannot be coerced is skipped;
each skipped entry contributes exactly one warning record; concretely, the
object with key a and string value x loads to the empty store with a warning,
and the object with key a and value 3 loads to quantity 3 for a, whatever the
prior store was. -/
theorem C7_load_coercion (st : Store) (entries : List (String × Json)) :
    (load_data (FileState.validJson (Json.obj entries)) st).err = none ∧
    (∀ k, hasKey
        (load_data (FileState.validJson (Json.obj entries)) st).store k =
          true ↔
      ∃ v, (k, v) ∈ entries ∧ (pyInt v).isSome) ∧
    List.count Level.warning
        (load_data (FileState.validJson (Json.obj entries)) st).logs =
      (entries.filter (fun e => (pyInt e.2).isNone)).length ∧
    load_data (FileState.validJson (Json.obj [("a", Json.jstr "x")])) st =
      ⟨none, [], [Level.warning, Level.info]⟩ ∧
    load_data (FileState.validJson (Json.obj [("a", Json.jint 3)])) st =
      ⟨none, [("a", 3)], [Level.info]⟩ := by
  refine ⟨rfl, ?_, ?_, rfl, rfl⟩
  · intro k
    simp only [load_data]
    rw [hasKey_normalizeFrom entries [] k]
    simp [hasKey]
  · simp only [load_data]
    rw [List.count_append, skipWarnings_count]
    simp

/-- C8: loading a path whose file does not exist returns normally, resets the
store to empty, and logs exactly one warning record and no error. -/
theorem C8_load_missing_file (st : Store) :
    load_data FileState.absent st = ⟨none, [], [Level.warning]⟩ := rfl

/-- C9: load_data performs no sign validation on coerced values: loading a
JSON object carrying the negative value -5 for key a succeeds whatever the
prior store was and stores -5; get_qty then returns -5, and a appears in the
low-stock report at every threshold above -5. -/
theorem C9_load_negative (st : Store) :
    load_data (FileState.validJson (Json.obj [("a", Json.jint (-5))])) st =
      ⟨none, [("a", -5)], [Level.info]⟩ ∧
    get_qty [("a", -5)] "a" = .ok (-5) ∧
    (∀ t : Int, -5 < t → "a" ∈ check_low_items [("a", -5)] t) := by
  refine ⟨rfl, rfl, ?_⟩
  intro t ht
  exact (mem_check_low_items _ t "a").mpr ⟨-5, by simp, ht⟩

/-- Witness for C9: the negative quantity shows up in the low-stock report at
threshold 0. -/
theorem C9_load_negative_witness :
    "a" ∈ check_low_items [("a", -5)] 0 :=
  (C9_load_negative []).2.2 0 (by decide)

/-- C10: loading a file whose text parses to a JSON value that is not an
object raises a plain ValueError, a class distinct from the
json.JSONDecodeError reported as ParseError, logged by no handler inside
load_data, and leaves the prior store contents unchanged. -/
theorem C10_load_non_object (st : Store) (v : Json)
    (h : ∀ entries, v ≠ Json.obj entries) :
    load_data (FileState.validJson v) st =
      ⟨some PyErr.valueError, st, []⟩ ∧
    PyErr.valueError ≠ PyErr.jsonDecodeError := by
  refine ⟨?_, by decide⟩
  cases v with
  | obj entries => exact absurd rfl (h entries)
  | arr items => rfl
  | jint n => rfl
  | jstr s => rfl
  | jbool b => rfl
  | jnull => rfl

/-- Witness for C10: loading a JSON array against a non-empty store. -/
theorem C10_load_non_object_witness :
    load_data (FileState.validJson (Json.arr [])) [("z", 9)] =
      ⟨some PyErr.valueError, [("z", 9)], []⟩ ∧
    PyErr.valueError ≠ PyErr.jsonDecodeError :=
  C10_load_non_object [("z", 9)] (Json.arr []) (fun _ h => nomatch h)

end InventoryModel
